import Mathlib

/-!
# Verification of `server/modelpath.go`

A shallow embedding of the model-path component: parsing of model
identifiers into `ModelPath` values, validation, canonical short/full
tag-name formatting, and filesystem path resolution for manifests and
blobs.

Go strings are modelled as `List Char`.  The Go standard-library string
operations used by the source (`strings.Cut`, `strings.Split` on a
single-character separator, `strings.ReplaceAll` on a single character,
`strings.Contains` of a single character) are given direct recursive
definitions below.  `filepath.Join` is modelled for already-clean
components as separator-interposed append.  The only filesystem side
effect of the source is `os.MkdirAll`, which is modelled by recording
the directory argument in an effect trace (per the component's own
concurrency notes, directory creation is idempotent and its success
path is the one specified); environment access (`os.LookupEnv`,
`os.UserHomeDir`) is modelled by an explicit `Env` record.
-/

set_option autoImplicit false

/-- Go strings, modelled as lists of characters. -/
abbrev Str := List Char

/-- Coerce a Lean string literal to the `List Char` model. -/
def str (s : String) : Str := s.data

/-- `leadsWith p l` is true when `p` is an initial segment of `l`
(the prefix test used by `strings.Cut` to find an occurrence). -/
def leadsWith : Str → Str → Bool
  | [], _ => true
  | _ :: _, [] => false
  | p :: ps, x :: xs => p == x && leadsWith ps xs

/-- `strings.Cut(s, sep)`: split `s` around the first occurrence of
`sep`, returning `some (before, after)` when found and `none` when not
(Go additionally returns `found`; absence is `none` here). -/
def listCut (sep : Str) : Str → Option (Str × Str)
  | [] => if sep.isEmpty then some ([], []) else none
  | x :: xs =>
      if leadsWith sep (x :: xs) then some ([], (x :: xs).drop sep.length)
      else (listCut sep xs).map fun p => (x :: p.1, p.2)

/-- `strings.Split(s, sep)` for a one-character separator: the list of
maximal separator-free chunks; splitting the empty string yields `[[]]`
exactly as Go returns `[""]`. -/
def splitChar (c : Char) : Str → List Str
  | [] => [[]]
  | x :: xs =>
      if x = c then [] :: splitChar c xs
      else
        match splitChar c xs with
        | [] => [[x]]
        | y :: ys => (x :: y) :: ys

/-- `strings.ReplaceAll(s, old, new)` for one-character `old`/`new`. -/
def replaceChar (old new : Char) : Str → Str
  | [] => []
  | x :: xs => (if x = old then new else x) :: replaceChar old new xs

/-- `filepath.Join(a, b)` for clean components: interpose the
separator. -/
def joinPath (a b : Str) : Str := a ++ '/' :: b

/-- `os.PathSeparator` on the target (Unix) platform. -/
def pathSeparator : Char := '/'

/-- The error values produced or propagated by this component:
`ErrInvalidDigestFormat`, the wrapped `errModelPathInvalid` errors (the
wrapping message is carried verbatim), and errors propagated from
outside the component (e.g. from `os.UserHomeDir`). -/
inductive GoError where
  | invalidDigestFormat
  | modelPathInvalid (msg : Str)
  | external (msg : Str)
deriving DecidableEq

/-- The `ModelPath` struct. -/
structure ModelPath where
  ProtocolScheme : Str
  Registry : Str
  Namespace : Str
  Repository : Str
  Tag : Str
deriving DecidableEq

def DefaultRegistry : Str := str "registry.ollama.ai"

def DefaultNamespace : Str := str "library"

def DefaultTag : Str := str "latest"

def DefaultProtocolScheme : Str := str "https"

/-- `isHexDigit c` decides membership in the regex character class
`[0-9a-fA-F]`. -/
def isHexDigit (c : Char) : Bool :=
  ('0' ≤ c && c ≤ '9') || ('a' ≤ c && c ≤ 'f') || ('A' ≤ c && c ≤ 'F')

/-- `blobDigestRegEx.MatchString`: the anchored regular expression
`^sha256[:-][0-9a-fA-F]{64}$` — the literal `sha256`, one separator
character (colon or dash), then exactly 64 hexadecimal characters. -/
def blobDigestMatch (s : Str) : Bool :=
  match s with
  | c1 :: c2 :: c3 :: c4 :: c5 :: c6 :: sep :: hex =>
      c1 == 's' && c2 == 'h' && c3 == 'a' && c4 == '2' && c5 == '5' && c6 == '6' &&
      (sep == ':' || sep == '-') && hex.length == 64 && hex.all isHexDigit
  | _ => false

/-- Stage one of `ParseModelPath`: the `strings.Cut(name, "://")` with
its `found` check — the scheme and the remaining identifier, the
scheme staying at its default when `"://"` does not occur. -/
def cutScheme (name : Str) : Str × Str :=
  match listCut (str "://") name with
  | some (before, after) => (before, after)
  | none => (DefaultProtocolScheme, name)

/-- Stage two of `ParseModelPath`: the `switch len(parts)` assigning
`(Registry, Namespace, Repository)` from the slash-separated segments;
any other segment count leaves all three at their initial values
(defaults, with an empty repository). -/
def assignParts (parts : List Str) : Str × Str × Str :=
  match parts with
  | [a, b, c] => (a, b, c)
  | [a, b] => (DefaultRegistry, a, b)
  | [a] => (DefaultRegistry, DefaultNamespace, a)
  | _ => (DefaultRegistry, DefaultNamespace, [])

/-- Stage three of `ParseModelPath`: the `strings.Cut(mp.Repository, ":")`
with its `found` check — repository and tag, the tag staying at its
default when no colon occurs. -/
def cutTag (repository : Str) : Str × Str :=
  match listCut [':'] repository with
  | some (repo, tag) => (repo, tag)
  | none => (repository, DefaultTag)

/-- `ParseModelPath`: total parser from a raw identifier to a
`ModelPath`.  Mirrors the source: cut the scheme at the first `"://"`,
normalize `os.PathSeparator` to `/`, split on `/` into up to three
segments, then cut the repository segment at its first colon into
repository and tag. -/
def ParseModelPath (name : Str) : ModelPath :=
  let sr := cutScheme name
  let parts := splitChar '/' (replaceChar pathSeparator '/' sr.2)
  let rnr := assignParts parts
  let rt := cutTag rnr.2.2
  { ProtocolScheme := sr.1
    Registry := rnr.1
    Namespace := rnr.2.1
    Repository := rt.1
    Tag := rt.2 }

/-- `ModelPath.Validate`: `none` is the nil error. -/
def ModelPath.Validate (mp : ModelPath) : Option GoError :=
  if mp.Repository = [] then
    some (.modelPathInvalid (str "model repository name is required"))
  else if ':' ∈ mp.Tag then
    some (.modelPathInvalid (str "':' (colon) is not allowed in tag names"))
  else
    none

/-- `GetNamespaceRepository`. -/
def ModelPath.GetNamespaceRepository (mp : ModelPath) : Str :=
  mp.Namespace ++ str "/" ++ mp.Repository

/-- `GetFullTagname`: `registry/namespace/repository:tag`. -/
def ModelPath.GetFullTagname (mp : ModelPath) : Str :=
  mp.Registry ++ str "/" ++ mp.Namespace ++ str "/" ++ mp.Repository ++ str ":" ++ mp.Tag

/-- `GetShortTagname`: elide the registry when it is the default, and
additionally the namespace when it too is the default. -/
def ModelPath.GetShortTagname (mp : ModelPath) : Str :=
  if mp.Registry = DefaultRegistry then
    if mp.Namespace = DefaultNamespace then
      mp.Repository ++ str ":" ++ mp.Tag
    else
      mp.Namespace ++ str "/" ++ mp.Repository ++ str ":" ++ mp.Tag
  else
    mp.Registry ++ str "/" ++ mp.Namespace ++ str "/" ++ mp.Repository ++ str ":" ++ mp.Tag

deriving instance DecidableEq for Except

/-- The process environment seen by this component: the value of
`OLLAMA_MODELS` when set (`os.LookupEnv`), and the result of
`os.UserHomeDir`. -/
structure Env where
  ollamaModels : Option Str
  userHomeDir : Except GoError Str
deriving DecidableEq

/-- `modelsDir`: the `OLLAMA_MODELS` override when set, otherwise
`<home>/.ollama/models`, propagating a home-directory failure. -/
def modelsDir (env : Env) : Except GoError Str :=
  match env.ollamaModels with
  | some models => .ok models
  | none =>
      match env.userHomeDir with
      | .error e => .error e
      | .ok home => .ok (joinPath (joinPath home (str ".ollama")) (str "models"))

/-- `ModelPath.GetManifestPath` (the per-address method): the manifest
file path for the address; the second component is the trace of
directories passed to `os.MkdirAll` (none for this form). -/
def ModelPath.GetManifestPath (mp : ModelPath) (env : Env) : Except GoError Str × List Str :=
  match modelsDir env with
  | .error e => (.error e, [])
  | .ok dir =>
      (.ok (joinPath (joinPath (joinPath (joinPath (joinPath dir (str "manifests"))
        mp.Registry) mp.Namespace) mp.Repository) mp.Tag), [])

/-- Package-scope `GetManifestPath`: the manifests root directory,
created eagerly via `os.MkdirAll` (recorded in the effect trace)
before returning. -/
def GetManifestPath (env : Env) : Except GoError Str × List Str :=
  match modelsDir env with
  | .error e => (.error e, [])
  | .ok dir =>
      let path := joinPath dir (str "manifests")
      (.ok path, [path])

/-- `GetBlobsPath`: resolve a digest to its blob file path.  A
non-empty digest must match `blobDigestRegEx` (early return with
`ErrInvalidDigestFormat` otherwise); on the remaining paths the colon
separator is rewritten to a dash, the path is formed under the blobs
directory (or is the blobs directory itself for an empty digest), and
`os.MkdirAll` is invoked on the blobs directory (recorded in the
effect trace). -/
def GetBlobsPath (env : Env) (digest : Str) : Except GoError Str × List Str :=
  match modelsDir env with
  | .error e => (.error e, [])
  | .ok dir0 =>
      let dir := joinPath dir0 (str "blobs")
      if digest ≠ [] then
        if blobDigestMatch digest = false then
          (.error .invalidDigestFormat, [])
        else
          let digest2 := replaceChar ':' '-' digest
          (.ok (joinPath dir digest2), [dir])
      else
        (.ok dir, [dir])

/-- `parseModelPathSpec` restates the C3 description of `Parse` in the
wording of the claim: first cut the raw string on the first occurrence of
`"://"` into scheme and remainder (the scheme staying at its default
`https` when `"://"` is absent); then split the remainder on `/` —
exactly three segments become (registry, namespace, repository),
exactly two become (namespace, repository) with the registry at its
default, exactly one becomes the repository with registry and
namespace at their defaults (any other count leaves the fields at
their initial values, the extra data dropped, per the spec); finally
split the repository value on its first colon, the left part
overwriting the repository and the right part becoming the tag, the
tag staying at its default `latest` when no colon is present. -/
def parseModelPathSpec (raw : Str) : ModelPath :=
  let sr : Str × Str :=
    match listCut (str "://") raw with
    | some (scheme, rest) => (scheme, rest)
    | none => (DefaultProtocolScheme, raw)
  let rnr : Str × Str × Str :=
    match splitChar '/' sr.2 with
    | [registry, namespc, repository] => (registry, namespc, repository)
    | [namespc, repository] => (DefaultRegistry, namespc, repository)
    | [repository] => (DefaultRegistry, DefaultNamespace, repository)
    | _ => (DefaultRegistry, DefaultNamespace, [])
  let rt : Str × Str :=
    match listCut [':'] rnr.2.2 with
    | some (repository, tag) => (repository, tag)
    | none => (rnr.2.2, DefaultTag)
  { ProtocolScheme := sr.1
    Registry := rnr.1
    Namespace := rnr.2.1
    Repository := rt.1
    Tag := rt.2 }

/-- The digest grammar in the words of the specification: `sha256`,
then a separator that is a colon or a dash, then exactly 64
case-insensitive hexadecimal characters. -/
def DigestSpec (s : Str) : Prop :=
  ∃ (sep : Char) (hex : Str),
    s = str "sha256" ++ sep :: hex ∧ (sep = ':' ∨ sep = '-') ∧
      hex.length = 64 ∧ ∀ c ∈ hex, isHexDigit c = true

/-- Append a character to the last chunk of a split (helper for
reasoning about `splitChar` over an appended character). -/
def addLast (d : Char) : List Str → List Str
  | [] => [[d]]
  | [y] => [y ++ [d]]
  | y :: ys => y :: addLast d ys

/-! ## Lemmas about the string primitives -/

theorem replaceChar_self (c : Char) : ∀ l : Str, replaceChar c c l = l
  | [] => rfl
  | x :: xs => by
      unfold replaceChar
      rw [replaceChar_self c xs]
      by_cases h : x = c
      · simp [h]
      · simp [h]

theorem leadsWith_eq : ∀ (p l : Str), leadsWith p l = true → l = p ++ l.drop p.length
  | [], l, _ => by simp
  | _ :: _, [], h => by simp [leadsWith] at h
  | a :: ps, x :: xs, h => by
      simp only [leadsWith, Bool.and_eq_true, beq_iff_eq] at h
      obtain ⟨h1, h2⟩ := h
      have ih := leadsWith_eq ps xs h2
      subst h1
      simpa using ih

theorem listCut_eq_some : ∀ (sep l b a : Str), listCut sep l = some (b, a) → l = b ++ sep ++ a
  | sep, [], b, a, h => by
      unfold listCut at h
      by_cases hs : sep.isEmpty
      · simp only [hs, if_true, Option.some.injEq, Prod.mk.injEq] at h
        obtain ⟨hb, ha⟩ := h
        subst hb; subst ha
        simp [List.isEmpty_iff.mp hs]
      · simp [hs] at h
  | sep, x :: xs, b, a, h => by
      unfold listCut at h
      by_cases hl : leadsWith sep (x :: xs) = true
      · rw [if_pos hl] at h
        simp only [Option.some.injEq, Prod.mk.injEq] at h
        obtain ⟨hb, ha⟩ := h
        subst hb; subst ha
        simpa using leadsWith_eq sep (x :: xs) hl
      · rcases hcut : listCut sep xs with _ | ⟨b1, a1⟩
        · rw [if_neg hl, hcut] at h
          simp at h
        · rw [if_neg hl, hcut] at h
          simp only [Option.map_some', Option.some.injEq, Prod.mk.injEq] at h
          obtain ⟨hb, ha⟩ := h
          subst hb; subst ha
          have ih := listCut_eq_some sep xs b1 a1 hcut
          simp [ih]

theorem mem_of_listCut_some {sep l b a : Str} (h : listCut sep l = some (b, a))
    {c : Char} (hc : c ∈ sep) : c ∈ l := by
  rw [listCut_eq_some sep l b a h]
  simp [hc]

theorem listCut_none_of_nmem {sep l : Str} {c : Char} (hc : c ∈ sep) (h : c ∉ l) :
    listCut sep l = none := by
  rcases heq : listCut sep l with _ | ⟨b, a⟩
  · rfl
  · exact absurd (mem_of_listCut_some heq hc) h

theorem leadsWith_single (c x : Char) (xs : Str) :
    leadsWith [c] (x :: xs) = (c == x) := by
  simp [leadsWith]

theorem listCut_single_none {c : Char} : ∀ {l : Str}, listCut [c] l = none → c ∉ l
  | [], _ => by simp
  | x :: xs, h => by
      unfold listCut at h
      rw [leadsWith_single] at h
      by_cases hx : c = x
      · simp [hx] at h
      · rcases hcut : listCut [c] xs with _ | p
        · have ih := listCut_single_none hcut
          simp [hx, ih]
        · simp [hx, hcut] at h

theorem listCut_single_some_nmem {c : Char} :
    ∀ {l b a : Str}, listCut [c] l = some (b, a) → c ∉ b
  | [], b, a, h => by simp [listCut] at h
  | x :: xs, b, a, h => by
      unfold listCut at h
      rw [leadsWith_single] at h
      by_cases hx : c = x
      · simp only [hx, beq_self_eq_true, if_true, Option.some.injEq, Prod.mk.injEq] at h
        obtain ⟨hb, _⟩ := h
        subst hb
        simp
      · rcases hcut : listCut [c] xs with _ | ⟨b1, a1⟩
        · simp [hx, hcut] at h
        · simp only [beq_iff_eq, hx, if_false, hcut, Option.map_some', Option.some.injEq,
            Prod.mk.injEq] at h
          obtain ⟨hb, _⟩ := h
          subst hb
          have ih := listCut_single_some_nmem hcut
          simp [hx, ih]

theorem listCut_single_append {c : Char} :
    ∀ {b : Str}, c ∉ b → ∀ a : Str, listCut [c] (b ++ c :: a) = some (b, a)
  | [], _, a => by simp [listCut, leadsWith]
  | x :: b', hb, a => by
      have hx : ¬c = x := fun h => hb (by simp [h])
      have hb' : c ∉ b' := fun h => hb (by simp [h])
      have ih := listCut_single_append hb' a
      simp only [List.cons_append]
      unfold listCut
      rw [leadsWith_single]
      simp [hx, ih]

theorem splitChar_ne_nil (c : Char) : ∀ l : Str, splitChar c l ≠ []
  | [] => by simp [splitChar]
  | x :: xs => by
      unfold splitChar
      by_cases h : x = c
      · simp [h]
      · rcases hs : splitChar c xs with _ | ⟨y, ys⟩ <;> simp [h, hs]

theorem nmem_of_mem_splitChar {c : Char} :
    ∀ {l p : Str}, p ∈ splitChar c l → c ∉ p
  | [], p, hp => by
      simp [splitChar] at hp
      simp [hp]
  | x :: xs, p, hp => by
      unfold splitChar at hp
      by_cases h : x = c
      · rw [if_pos h] at hp
        rcases List.mem_cons.mp hp with hp | hp
        · simp [hp]
        · exact nmem_of_mem_splitChar hp
      · rcases hs : splitChar c xs with _ | ⟨y, ys⟩
        · exact absurd hs (splitChar_ne_nil c xs)
        · rw [if_neg h, hs] at hp
          rcases List.mem_cons.mp hp with hp | hp
          · have hy : c ∉ y := nmem_of_mem_splitChar (l := xs) (by rw [hs]; simp)
            subst hp
            intro hc
            rcases List.mem_cons.mp hc with hc | hc
            · exact h hc.symm
            · exact hy hc
          · exact nmem_of_mem_splitChar (l := xs) (by rw [hs]; simp [hp])

theorem mem_of_mem_splitChar {c d : Char} :
    ∀ {l p : Str}, p ∈ splitChar c l → d ∈ p → d ∈ l
  | [], p, hp, hd => by
      simp [splitChar] at hp
      subst hp
      simp at hd
  | x :: xs, p, hp, hd => by
      unfold splitChar at hp
      by_cases h : x = c
      · rw [if_pos h] at hp
        rcases List.mem_cons.mp hp with hp | hp
        · subst hp; simp at hd
        · exact List.mem_cons_of_mem _ (mem_of_mem_splitChar hp hd)
      · rcases hs : splitChar c xs with _ | ⟨y, ys⟩
        · exact absurd hs (splitChar_ne_nil c xs)
        · rw [if_neg h, hs] at hp
          rcases List.mem_cons.mp hp with hp | hp
          · subst hp
            rcases List.mem_cons.mp hd with hd | hd
            · simp [hd]
            · exact List.mem_cons_of_mem _
                (mem_of_mem_splitChar (l := xs) (by rw [hs]; simp) hd)
          · exact List.mem_cons_of_mem _
              (mem_of_mem_splitChar (l := xs) (by rw [hs]; simp [hp]) hd)

theorem splitChar_eq_single {c : Char} : ∀ {l : Str}, c ∉ l → splitChar c l = [l]
  | [], _ => rfl
  | x :: xs, h => by
      have hx : ¬x = c := fun hc => h (by simp [hc])
      have hxs : c ∉ xs := fun hc => h (by simp [hc])
      unfold splitChar
      rw [if_neg hx, splitChar_eq_single hxs]

theorem addLast_append (d : Char) :
    ∀ (parts : List Str) (p : Str), addLast d (parts ++ [p]) = parts ++ [p ++ [d]]
  | [], p => rfl
  | x :: xs, p => by
      rcases hxe : xs ++ [p] with _ | ⟨e, es⟩
      · exact absurd hxe (by simp)
      · have ih := addLast_append d xs p
        calc addLast d (x :: xs ++ [p]) = x :: addLast d (xs ++ [p]) := by
              rw [List.cons_append, hxe]
              rfl
          _ = x :: xs ++ [p ++ [d]] := by rw [ih]; simp

theorem splitChar_append_single {c d : Char} (hdc : ¬d = c) :
    ∀ l : Str, splitChar c (l ++ [d]) = addLast d (splitChar c l)
  | [] => by simp [splitChar, hdc, addLast]
  | x :: l' => by
      have ih := splitChar_append_single hdc l'
      by_cases h : x = c
      · rw [List.cons_append]
        unfold splitChar
        rw [if_pos h, if_pos h, ih]
        rcases hs : splitChar c l' with _ | ⟨y, ys⟩
        · exact absurd hs (splitChar_ne_nil c l')
        · rfl
      · rw [List.cons_append]
        unfold splitChar
        rw [if_neg h, if_neg h, ih]
        rcases hs : splitChar c l' with _ | ⟨y, ys⟩
        · exact absurd hs (splitChar_ne_nil c l')
        · rcases ys with _ | ⟨z, zs⟩
          · rfl
          · rfl

theorem append_single_inj {c : Char} :
    ∀ {b : Str} (r : Str), c ∉ r → ∀ t : Str, r ++ [c] = b ++ c :: t → b = r ∧ t = []
  | [], r, hr, t, h => by
      rcases r with _ | ⟨y, r'⟩
      · refine ⟨rfl, ?_⟩
        simpa using h.symm
      · rw [List.cons_append] at h
        have hy : y = c := by
          simpa using congrArg (fun l => List.headD l 'x') h
        exact absurd (hy ▸ List.mem_cons_self y r') hr
  | x :: b', r, hr, t, h => by
      rcases r with _ | ⟨y, r'⟩
      · exfalso
        simp only [List.nil_append, List.cons_append] at h
        have hlen := congrArg List.length h
        simp at hlen
      · rw [List.cons_append, List.cons_append] at h
        have hxy : y = x := by
          simpa using congrArg (fun l => List.headD l 'x') h
        have htl : r' ++ [c] = b' ++ c :: t := by
          simpa using congrArg List.tail h
        have hr' : c ∉ r' := fun hc => hr (List.mem_cons_of_mem _ hc)
        obtain ⟨hb, ht⟩ := append_single_inj r' hr' t htl
        exact ⟨by rw [hxy, hb], ht⟩

/-! ## Lemmas about the parser stages -/

theorem cutScheme_of_nmem_slash {n : Str} (h : '/' ∉ n) :
    cutScheme n = (DefaultProtocolScheme, n) := by
  unfold cutScheme
  rw [listCut_none_of_nmem (by decide : ('/' : Char) ∈ str "://") h]

theorem cutScheme_terminal_colon {r : Str} (h : ':' ∉ r) :
    cutScheme (r ++ [':']) = (DefaultProtocolScheme, r ++ [':']) := by
  unfold cutScheme
  rcases heq : listCut (str "://") (r ++ [':']) with _ | ⟨b, a⟩
  · rfl
  · exfalso
    have he := listCut_eq_some _ _ _ _ heq
    rw [show str "://" = [':', '/', '/'] from rfl] at he
    have he' : r ++ [':'] = b ++ ':' :: ('/' :: '/' :: a) := by simpa using he
    obtain ⟨_, ht⟩ := append_single_inj r h _ he'
    simp at ht

theorem cutTag_fst_nmem (r : Str) : ':' ∉ (cutTag r).1 := by
  unfold cutTag
  rcases heq : listCut [':'] r with _ | ⟨b, a⟩
  · exact listCut_single_none heq
  · exact listCut_single_some_nmem heq

theorem cutTag_mem {r : Str} {d : Char} :
    (d ∈ (cutTag r).1 → d ∈ r) ∧ (d ∈ (cutTag r).2 → d ∈ r ∨ d ∈ DefaultTag) := by
  unfold cutTag
  rcases heq : listCut [':'] r with _ | ⟨b, a⟩
  · exact ⟨fun h => h, fun h => Or.inr h⟩
  · have he := listCut_eq_some _ _ _ _ heq
    constructor
    · intro h
      rw [he]
      simp [h]
    · intro h
      rw [he]
      simp [h]

theorem cutTag_append {r t : Str} (h : ':' ∉ r) : cutTag (r ++ ':' :: t) = (r, t) := by
  unfold cutTag
  rw [listCut_single_append h t]

theorem cutTag_of_nmem {r : Str} (h : ':' ∉ r) : cutTag r = (r, DefaultTag) := by
  unfold cutTag
  rw [listCut_none_of_nmem (by simp : (':' : Char) ∈ [':']) h]

theorem assignParts_repo_mem {parts : List Str} {d : Char}
    (h : d ∈ (assignParts parts).2.2) : ∃ p ∈ parts, d ∈ p := by
  rcases parts with _ | ⟨a, _ | ⟨b, _ | ⟨c, _ | ⟨e, l⟩⟩⟩⟩
  · simp [assignParts] at h
  · exact ⟨a, by simp, h⟩
  · exact ⟨b, by simp, h⟩
  · exact ⟨c, by simp, h⟩
  · simp [assignParts] at h

/-- Structural facts about every parse result: the repository carries
no colon and no slash, and the tag carries no slash. -/
theorem ParseModelPath_fields (s : Str) :
    ':' ∉ (ParseModelPath s).Repository ∧ '/' ∉ (ParseModelPath s).Repository ∧
      '/' ∉ (ParseModelPath s).Tag := by
  refine ⟨cutTag_fst_nmem _, ?_, ?_⟩
  · intro h
    obtain ⟨p, hp, hdp⟩ := assignParts_repo_mem (cutTag_mem.1 h)
    exact nmem_of_mem_splitChar hp hdp
  · intro h
    rcases cutTag_mem.2 h with h | h
    · obtain ⟨p, hp, hdp⟩ := assignParts_repo_mem h
      exact nmem_of_mem_splitChar hp hdp
    · revert h
      decide

/-- Evaluation of the parser on a slash-free `repository:tag` input. -/
theorem ParseModelPath_eval (repo tag : Str) (h1 : '/' ∉ repo) (h2 : ':' ∉ repo)
    (h3 : '/' ∉ tag) :
    ParseModelPath (repo ++ ':' :: tag) =
      ⟨DefaultProtocolScheme, DefaultRegistry, DefaultNamespace, repo, tag⟩ := by
  have hw : '/' ∉ repo ++ ':' :: tag := by
    intro h
    rcases List.mem_append.mp h with h | h
    · exact h1 h
    · rcases List.mem_cons.mp h with h | h
      · exact absurd h (by decide)
      · exact h3 h
  simp only [ParseModelPath, cutScheme_of_nmem_slash hw,
    show pathSeparator = '/' from rfl, replaceChar_self, splitChar_eq_single hw,
    assignParts, cutTag_append h2]

/-! ## Claim theorems -/

/-- C3: for every raw input string, `ParseModelPath` behaves exactly as
the spec describes the parse pipeline — cut on the first `"://"` into
scheme and remainder (scheme defaulting to `https` when absent), split
the remainder on `/` into (registry, namespace, repository) /
(namespace, repository) / (repository) according to the segment count
with the missing fields at their defaults, then split the repository
value on its first colon into repository and tag with the tag
defaulting to `latest` when no colon is present. -/
theorem parse_pipeline_eq_spec (s : Str) : ParseModelPath s = parseModelPathSpec s := by
  unfold ParseModelPath parseModelPathSpec cutScheme assignParts cutTag
  simp only [show pathSeparator = '/' from rfl, replaceChar_self]

/-- C4: `Validate` fails exactly on an empty repository (first, with
the repository-required message) or on a tag containing a colon (with
the colon message); every other address — whatever its registry,
namespace, or scheme — is accepted. -/
theorem validate_characterization (mp : ModelPath) :
    (mp.Repository = [] →
      mp.Validate = some (.modelPathInvalid (str "model repository name is required"))) ∧
    (mp.Repository ≠ [] → ':' ∈ mp.Tag →
      mp.Validate = some (.modelPathInvalid (str "':' (colon) is not allowed in tag names"))) ∧
    (mp.Validate = none ↔ mp.Repository ≠ [] ∧ ':' ∉ mp.Tag) := by
  unfold ModelPath.Validate
  refine ⟨fun h => by rw [if_pos h], fun h1 h2 => by rw [if_neg h1, if_pos h2], ?_, ?_⟩
  · intro h
    by_cases h1 : mp.Repository = []
    · rw [if_pos h1] at h
      exact absurd h (by simp)
    · by_cases h2 : ':' ∈ mp.Tag
      · rw [if_neg h1, if_pos h2] at h
        exact absurd h (by simp)
      · exact ⟨h1, h2⟩
  · rintro ⟨h1, h2⟩
    rw [if_neg h1, if_neg h2]

theorem validate_characterization_witness :
    ModelPath.Validate
      ⟨str "https", DefaultRegistry, DefaultNamespace, str "m", str "latest"⟩ = none :=
  (validate_characterization _).2.2.mpr ⟨by decide, by decide⟩

/-- C6: `GetShortTagname` omits the registry exactly when it is the
default, omits the namespace only when the registry is also default
and the namespace is default, and otherwise coincides with
`GetFullTagname`, which always formats all four fields. -/
theorem tagname_formatting (mp : ModelPath) :
    mp.GetFullTagname =
      mp.Registry ++ str "/" ++ mp.Namespace ++ str "/" ++ mp.Repository ++ str ":" ++ mp.Tag ∧
    (mp.Registry = DefaultRegistry → mp.Namespace = DefaultNamespace →
      mp.GetShortTagname = mp.Repository ++ str ":" ++ mp.Tag) ∧
    (mp.Registry = DefaultRegistry → mp.Namespace ≠ DefaultNamespace →
      mp.GetShortTagname = mp.Namespace ++ str "/" ++ mp.Repository ++ str ":" ++ mp.Tag) ∧
    (mp.Registry ≠ DefaultRegistry → mp.GetShortTagname = mp.GetFullTagname) := by
  refine ⟨rfl, fun h1 h2 => ?_, fun h1 h2 => ?_, fun h1 => ?_⟩ <;>
    unfold ModelPath.GetShortTagname
  · rw [if_pos h1, if_pos h2]
  · rw [if_pos h1, if_neg h2]
  · rw [if_neg h1]
    rfl

theorem tagname_formatting_witness :
    ModelPath.GetShortTagname
      ⟨str "https", DefaultRegistry, DefaultNamespace, str "m", str "latest"⟩ =
      str "m" ++ str ":" ++ str "latest" :=
  (tagname_formatting _).2.1 rfl rfl

/-- C9: `modelsDir` returns the `OLLAMA_MODELS` override when the
variable is set; when unset it appends `.ollama/models` to the home
directory, and a home-directory failure is propagated unchanged. -/
theorem modelsDir_lookup (env : Env) :
    (∀ m, env.ollamaModels = some m → modelsDir env = .ok m) ∧
    (env.ollamaModels = none → ∀ h, env.userHomeDir = .ok h →
      modelsDir env = .ok (joinPath (joinPath h (str ".ollama")) (str "models"))) ∧
    (env.ollamaModels = none → ∀ e, env.userHomeDir = .error e →
      modelsDir env = .error e) := by
  unfold modelsDir
  exact ⟨fun m hm => by rw [hm], fun hn h hh => by rw [hn, hh], fun hn e he => by rw [hn, he]⟩

theorem modelsDir_lookup_witness :
    modelsDir ⟨none, .ok (str "/home/u")⟩ =
      .ok (joinPath (joinPath (str "/home/u") (str ".ollama")) (str "models")) :=
  (modelsDir_lookup ⟨none, .ok (str "/home/u")⟩).2.1 rfl (str "/home/u") rfl

/-- C5 (amended): when a parse yields the default registry, namespace,
and protocol scheme, re-parsing the short name reproduces the address:
the claim as stated omits the scheme condition and fails for inputs
carrying an explicit scheme (see the counterexample). -/
theorem parse_shortname_roundtrip (s : Str)
    (hsc : (ParseModelPath s).ProtocolScheme = DefaultProtocolScheme)
    (hreg : (ParseModelPath s).Registry = DefaultRegistry)
    (hns : (ParseModelPath s).Namespace = DefaultNamespace) :
    ParseModelPath (ParseModelPath s).GetShortTagname = ParseModelPath s := by
  obtain ⟨h1, h2, h3⟩ := ParseModelPath_fields s
  have hshort : (ParseModelPath s).GetShortTagname =
      (ParseModelPath s).Repository ++ ':' :: (ParseModelPath s).Tag := by
    unfold ModelPath.GetShortTagname
    rw [if_pos hreg, if_pos hns, show str ":" = [':'] from rfl, List.append_assoc]
    rfl
  rw [hshort, ParseModelPath_eval _ _ h2 h1 h3]
  rcases hmp : ParseModelPath s with ⟨a, b, c, d, e⟩
  rw [hmp] at hsc hreg hns
  simp only [] at hsc hreg hns
  rw [hsc, hreg, hns]

theorem parse_shortname_roundtrip_cex :
    (ParseModelPath (str "http://m")).Registry = DefaultRegistry ∧
    (ParseModelPath (str "http://m")).Namespace = DefaultNamespace ∧
    ParseModelPath (ParseModelPath (str "http://m")).GetShortTagname ≠
      ParseModelPath (str "http://m") := by
  decide

theorem parse_shortname_roundtrip_witness :
    ParseModelPath (ParseModelPath (str "m")).GetShortTagname = ParseModelPath (str "m") :=
  parse_shortname_roundtrip (str "m") (by decide) (by decide) (by decide)

/-- C8: the per-address `GetManifestPath` returns
`<root>/manifests/<registry>/<namespace>/<repository>/<tag>` and
performs no directory creation, while the package-scope
`GetManifestPath` returns `<root>/manifests` and creates exactly that
directory; the recorded effect traces are the complete filesystem
effects of the two forms. -/
theorem manifest_path_forms (env : Env) (dir : Str) (mp : ModelPath)
    (hdir : modelsDir env = .ok dir) :
    mp.GetManifestPath env =
      (.ok (joinPath (joinPath (joinPath (joinPath (joinPath dir (str "manifests"))
        mp.Registry) mp.Namespace) mp.Repository) mp.Tag), []) ∧
    GetManifestPath env =
      (.ok (joinPath dir (str "manifests")), [joinPath dir (str "manifests")]) := by
  unfold ModelPath.GetManifestPath GetManifestPath
  rw [hdir]
  exact ⟨rfl, rfl⟩

theorem manifest_path_forms_witness :
    GetManifestPath ⟨some (str "/m"), .ok (str "/h")⟩ =
      (.ok (joinPath (str "/m") (str "manifests")), [joinPath (str "/m") (str "manifests")]) :=
  (manifest_path_forms ⟨some (str "/m"), .ok (str "/h")⟩ (str "/m")
    ⟨str "https", DefaultRegistry, DefaultNamespace, str "m", str "latest"⟩ rfl).2

/-- C1 (amended): `GetBlobsPath` validates the digest before creating
anything — a non-empty digest failing the pattern returns
`ErrInvalidDigestFormat` with no directory created, and the blobs
directory is created exactly on the success paths (valid digest or
empty digest); the claim as stated asserts creation before validation
and is refuted by the counterexample. -/
theorem blobs_mkdir_after_validation (env : Env) (dir digest : Str)
    (hdir : modelsDir env = .ok dir) :
    (digest ≠ [] → blobDigestMatch digest = false →
      GetBlobsPath env digest = (.error .invalidDigestFormat, [])) ∧
    (blobDigestMatch digest = true →
      (GetBlobsPath env digest).2 = [joinPath dir (str "blobs")]) ∧
    (GetBlobsPath env []).2 = [joinPath dir (str "blobs")] := by
  unfold GetBlobsPath
  simp only [hdir]
  refine ⟨fun h1 h2 => ?_, fun h => ?_, ?_⟩
  · rw [if_pos h1, if_pos h2]
  · have h1 : digest ≠ [] := by
      intro hd
      subst hd
      exact absurd h (by decide)
    rw [if_pos h1, if_neg (by simp [h])]
  · rw [if_neg (by simp : ¬([] : Str) ≠ [])]

theorem blobs_premature_mkdir_cex :
    (GetBlobsPath ⟨some (str "/m"), .ok (str "/h")⟩ (str "bogus")).1 =
      .error .invalidDigestFormat ∧
    (GetBlobsPath ⟨some (str "/m"), .ok (str "/h")⟩ (str "bogus")).2 = [] := by
  decide

theorem blobs_mkdir_after_validation_witness :
    GetBlobsPath ⟨some (str "/m"), .ok (str "/h")⟩ (str "nope") =
      (.error .invalidDigestFormat, []) :=
  (blobs_mkdir_after_validation ⟨some (str "/m"), .ok (str "/h")⟩ (str "/m")
    (str "nope") rfl).1 (by decide) (by decide)

/-- C7: for a digest that passes validation, `GetBlobsPath` returns
the digest with its colon separator rewritten to a dash, joined
directly under the blobs directory (all other characters, including
hex case, preserved); for the empty digest it returns the blobs
directory itself. -/
theorem blobs_path_success (env : Env) (dir digest : Str)
    (hdir : modelsDir env = .ok dir) (hmatch : blobDigestMatch digest = true) :
    (GetBlobsPath env digest).1 =
      .ok (joinPath (joinPath dir (str "blobs")) (replaceChar ':' '-' digest)) ∧
    (GetBlobsPath env []).1 = .ok (joinPath dir (str "blobs")) := by
  have hne : digest ≠ [] := by
    intro h
    subst h
    exact absurd hmatch (by decide)
  unfold GetBlobsPath
  simp only [hdir]
  constructor
  · rw [if_pos hne, if_neg (by simp [hmatch])]
  · rw [if_neg (by simp : ¬([] : Str) ≠ [])]

theorem blobs_path_success_witness :
    (GetBlobsPath ⟨some (str "/m"), .ok (str "/h")⟩
      (str "sha256:aaaaaaaaaaaaaaaaaaaaaaaaaaaaaaaaaaaaaaaaaaaaaaaaaaaaaaaaaaaaaaaA")).1 =
    .ok (joinPath (joinPath (str "/m") (str "blobs"))
      (replaceChar ':' '-'
        (str "sha256:aaaaaaaaaaaaaaaaaaaaaaaaaaaaaaaaaaaaaaaaaaaaaaaaaaaaaaaaaaaaaaaA"))) :=
  (blobs_path_success ⟨some (str "/m"), .ok (str "/h")⟩ (str "/m") _ rfl (by decide)).1

/-- The compiled regular expression agrees with the digest grammar
stated by the specification. -/
theorem blobDigestMatch_iff (s : Str) : blobDigestMatch s = true ↔ DigestSpec s := by
  constructor
  · intro h
    rcases s with _ | ⟨c1, s⟩
    · exact Bool.noConfusion h
    rcases s with _ | ⟨c2, s⟩
    · exact Bool.noConfusion h
    rcases s with _ | ⟨c3, s⟩
    · exact Bool.noConfusion h
    rcases s with _ | ⟨c4, s⟩
    · exact Bool.noConfusion h
    rcases s with _ | ⟨c5, s⟩
    · exact Bool.noConfusion h
    rcases s with _ | ⟨c6, s⟩
    · exact Bool.noConfusion h
    rcases s with _ | ⟨sep, hex⟩
    · exact Bool.noConfusion h
    simp only [blobDigestMatch, Bool.and_eq_true, beq_iff_eq, Bool.or_eq_true,
      List.all_eq_true] at h
    obtain ⟨⟨⟨⟨⟨⟨⟨⟨hc1, hc2⟩, hc3⟩, hc4⟩, hc5⟩, hc6⟩, hsep⟩, hlen⟩, hall⟩ := h
    subst hc1; subst hc2; subst hc3; subst hc4; subst hc5; subst hc6
    exact ⟨sep, hex, rfl, hsep, hlen, hall⟩
  · rintro ⟨sep, hex, rfl, hsep, hlen, hall⟩
    have hstr : str "sha256" ++ sep :: hex =
        's' :: 'h' :: 'a' :: '2' :: '5' :: '6' :: sep :: hex := rfl
    rw [hstr]
    rcases hsep with h | h <;> subst h <;>
      simp [blobDigestMatch, hlen, List.all_eq_true] <;> exact hall

/-- C2: a non-empty digest is accepted by `GetBlobsPath` exactly when
it is `sha256`, a colon or dash separator, and exactly 64 hexadecimal
characters of either case; every other non-empty digest is rejected
with `ErrInvalidDigestFormat`. -/
theorem blobs_digest_acceptance (env : Env) (dir digest : Str)
    (hdir : modelsDir env = .ok dir) (hne : digest ≠ []) :
    ((∃ p, (GetBlobsPath env digest).1 = .ok p) ↔ DigestSpec digest) ∧
    (¬DigestSpec digest → (GetBlobsPath env digest).1 = .error .invalidDigestFormat) := by
  unfold GetBlobsPath
  simp only [hdir]
  cases hb : blobDigestMatch digest with
  | false =>
      rw [if_pos hne, if_pos (rfl : (false : Bool) = false)]
      refine ⟨⟨?_, ?_⟩, fun _ => rfl⟩
      · rintro ⟨p, hp⟩
        simp at hp
      · intro hd
        exact absurd ((blobDigestMatch_iff digest).mpr hd) (by simp [hb])
  | true =>
      rw [if_pos hne, if_neg (by simp : ¬((true : Bool) = false))]
      refine ⟨⟨fun _ => (blobDigestMatch_iff digest).mp hb, fun _ => ⟨_, rfl⟩⟩, fun hd => ?_⟩
      exact absurd ((blobDigestMatch_iff digest).mp hb) hd

theorem blobs_digest_acceptance_witness :
    (∃ p, (GetBlobsPath ⟨some (str "/m"), .ok (str "/h")⟩
      (str "sha256-0123456789abcdefABCDEF0123456789abcdefABCDEF0123456789abcdef0123")).1 =
        .ok p) ↔
    DigestSpec
      (str "sha256-0123456789abcdefABCDEF0123456789abcdefABCDEF0123456789abcdef0123") :=
  (blobs_digest_acceptance ⟨some (str "/m"), .ok (str "/h")⟩ (str "/m")
    (str "sha256-0123456789abcdefABCDEF0123456789abcdefABCDEF0123456789abcdef0123")
    rfl (by decide)).1

/-- An address with an empty tag is formatted with a trailing colon by
both tag-name forms. -/
theorem tagname_trailing_colon {mp : ModelPath} (h : mp.Tag = []) :
    (∃ u, mp.GetShortTagname = u ++ [':']) ∧ ∃ u, mp.GetFullTagname = u ++ [':'] := by
  constructor
  · unfold ModelPath.GetShortTagname
    by_cases h1 : mp.Registry = DefaultRegistry
    · by_cases h2 : mp.Namespace = DefaultNamespace
      · rw [if_pos h1, if_pos h2, h, show str ":" = [':'] from rfl]
        exact ⟨mp.Repository, by simp⟩
      · rw [if_pos h1, if_neg h2, h, show str ":" = [':'] from rfl]
        exact ⟨mp.Namespace ++ str "/" ++ mp.Repository, by simp⟩
    · rw [if_neg h1, h, show str ":" = [':'] from rfl]
      exact ⟨mp.Registry ++ str "/" ++ mp.Namespace ++ str "/" ++ mp.Repository, by simp⟩
  · unfold ModelPath.GetFullTagname
    rw [h, show str ":" = [':'] from rfl]
    exact ⟨mp.Registry ++ str "/" ++ mp.Namespace ++ str "/" ++ mp.Repository, by simp⟩

/-- C10 (amended): an input whose repository segment ends in a colon
with nothing after it parses with an empty tag rather than the default
`latest`; provided the repository part before the colon is non-empty,
the address passes `Validate` and both `GetShortTagname` and
`GetFullTagname` format it with a trailing colon.  (The claim as
stated also asserts that `Validate` passes when the repository part is
empty — refuted by the input `":"` in the counterexample.) -/
theorem parse_trailing_colon (r p : Str) (parts : List Str)
    (hsplit : splitChar '/' r = parts ++ [p])
    (hlen : parts.length ≤ 2) (hpne : p ≠ []) (hcolon : ':' ∉ r) :
    (ParseModelPath (r ++ [':'])).Tag = [] ∧
    (ParseModelPath (r ++ [':'])).Validate = none ∧
    (∃ u, (ParseModelPath (r ++ [':'])).GetShortTagname = u ++ [':']) ∧
    (∃ u, (ParseModelPath (r ++ [':'])).GetFullTagname = u ++ [':']) := by
  have hpmem : p ∈ splitChar '/' r := by
    rw [hsplit]
    simp
  have hpc : ':' ∉ p := fun hc => hcolon (mem_of_mem_splitChar hpmem hc)
  have hsp : splitChar '/' (r ++ [':']) = parts ++ [p ++ [':']] := by
    rw [splitChar_append_single (by decide) r, hsplit, addLast_append]
  have hrt : (ParseModelPath (r ++ [':'])).Repository = p ∧
      (ParseModelPath (r ++ [':'])).Tag = [] := by
    simp only [ParseModelPath, cutScheme_terminal_colon hcolon,
      show pathSeparator = '/' from rfl, replaceChar_self, hsp]
    rcases parts with _ | ⟨a, _ | ⟨b, _ | ⟨c, l⟩⟩⟩
    · simp only [List.nil_append, assignParts]
      rw [cutTag_append hpc]
      exact ⟨rfl, rfl⟩
    · simp only [List.cons_append, List.nil_append, assignParts]
      rw [cutTag_append hpc]
      exact ⟨rfl, rfl⟩
    · simp only [List.cons_append, List.nil_append, assignParts]
      rw [cutTag_append hpc]
      exact ⟨rfl, rfl⟩
    · exfalso
      simp at hlen
  refine ⟨hrt.2, ?_, (tagname_trailing_colon hrt.2).1, (tagname_trailing_colon hrt.2).2⟩
  unfold ModelPath.Validate
  rw [if_neg (by rw [hrt.1]; exact hpne), if_neg (by rw [hrt.2]; simp)]

theorem parse_trailing_colon_cex :
    (ParseModelPath (str ":")).Tag = [] ∧ (ParseModelPath (str ":")).Validate ≠ none := by
  decide

theorem parse_trailing_colon_witness :
    (ParseModelPath (str "repo" ++ [':'])).Tag = [] ∧
    (ParseModelPath (str "repo" ++ [':'])).Validate = none ∧
    (∃ u, (ParseModelPath (str "repo" ++ [':'])).GetShortTagname = u ++ [':']) ∧
    (∃ u, (ParseModelPath (str "repo" ++ [':'])).GetFullTagname = u ++ [':']) :=
  parse_trailing_colon (str "repo") (str "repo") [] (by decide) (by decide) (by decide)
    (by decide)
